import Mathlib

/-!
Verification of the Tencent COS blob-storage driver
(`registry/storage/driver/cos/cos.go`).

The driver's pure logic (path mapping, the chunked-writer state machine,
the part-copy planner, metadata operations) is shallowly embedded below.
The remote object store is an external collaborator consumed through a
capability interface; it is modelled as an always-succeeding mock store
that records uploads, completions and aborts, or — for the operations
whose error branches are under scrutiny — by passing the transport
outcome in as an explicit parameter.
-/

namespace Cos

/-! ## Constants (from cos.go lines 23-40) -/

/-- listMax from the source: page size for bucket listings. -/
def listMax : Nat := 1000

/-- minChunkSize from the source: 1 MiB, the minimum multipart part size. -/
def minChunkSize : Nat := 1 <<< 20

/-- defaultChunkSize from the source: twice the minimum chunk size. -/
def defaultChunkSize : Nat := 2 * minChunkSize

/-- multipartCopyMaxConcurrency from the source. -/
def multipartCopyMaxConcurrency : Nat := 10

/-- multipartCopyThresholdSize from the source: 128 MiB. -/
def multipartCopyThresholdSize : Nat := 128 <<< 20

/-- multipartCopyChunkSize from the source: 128 MiB. -/
def multipartCopyChunkSize : Nat := 128 <<< 20

/-! ## Path mapper (cos.go lines 680-682 and 163-186) -/

/-- Go strings.TrimLeft(s, "/"): drop every leading slash. -/
def trimLeftSlashes (l : List Char) : List Char :=
  l.dropWhile (fun ch => ch = '/')

/-- Go strings.TrimRight(s, "/"): drop every trailing slash. -/
def trimRightSlashes (l : List Char) : List Char :=
  (l.reverse.dropWhile (fun ch => ch = '/')).reverse

/-- driver.cosPath: strings.TrimLeft(strings.TrimRight(d.RootDirectory, "/")+path, "/"). -/
def cosPath (rootDirectory path : List Char) : List Char :=
  trimLeftSlashes (trimRightSlashes rootDirectory ++ path)

/-- Modelled from the spec: toKey(path) = trimLeadingSlashes(trimTrailingSlash(root) + path),
where trimming removes every slash on the respective side, as in the source. -/
def toKey (root path : List Char) : List Char :=
  trimLeftSlashes (trimRightSlashes root ++ path)

/-- New (cos.go line 176) hard-codes RootDirectory to the empty string for
every constructed driver. -/
def newRootDirectory : List Char := []

/-! ## Part-copy planner (cos.go lines 685-758) -/

/-- Plan of driver.copy once the source size is known: either a single
server-side Copy call, or a multipart copy with explicit byte ranges
(firstByte, lastByte) for part index 0, 1, .... -/
inductive CopyPlan where
  | singleShot : CopyPlan
  | multipart (ranges : List (Nat × Nat)) : CopyPlan
deriving DecidableEq

/-- Byte range of part index i in driver.copy:
firstByte := i*multipartCopyChunkSize; lastByte := firstByte+chunk-1,
clamped to size-1 when it runs past the end. -/
def copyPartRange (size i : Nat) : Nat × Nat :=
  let firstByte := i * multipartCopyChunkSize
  let lastByte := firstByte + multipartCopyChunkSize - 1
  (firstByte, if size ≤ lastByte then size - 1 else lastByte)

/-- numParts := (size + multipartCopyChunkSize - 1) / multipartCopyChunkSize. -/
def copyNumParts (size : Nat) : Nat :=
  (size + multipartCopyChunkSize - 1) / multipartCopyChunkSize

/-- driver.copy: single-shot Copy when size ≤ multipartCopyThresholdSize,
otherwise a multipart copy of copyNumParts ranged part-copies. -/
def copyPlan (size : Nat) : CopyPlan :=
  if size ≤ multipartCopyThresholdSize then .singleShot
  else .multipart ((List.range (copyNumParts size)).map (copyPartRange size))

/-! ## Move (cos.go lines 380-388) -/

/-- Outcome of driver.Move as a function of the transport outcomes of its
two calls (the internal copy, then Object.Delete on the source). -/
structure MoveResult where
  returnedError : Option String
  deleteAttempted : Bool
deriving DecidableEq

/-- driver.Move: `err := d.copy(...); if err != nil { return nil };
_, err = Object.Delete(source); return err`.  Note the copy error is
swallowed: on copy failure Move returns nil without deleting the source. -/
def move (copyResult deleteResult : Option String) : MoveResult :=
  match copyResult with
  | some _ => { returnedError := none, deleteAttempted := false }
  | none => { returnedError := deleteResult, deleteAttempted := true }

/-! ## GetContent error handling (cos.go lines 192-201) -/

/-- driver.GetContent as a function of the transport outcomes: the
Object.Get error is propagated, but the error of reading the response
body is discarded (`bs, _ := ioutil.ReadAll(resp.Body)`) and the bytes
read so far are returned with a nil error. -/
def getContent (getResult : Option String) (bodyRead : List Nat)
    (_readError : Option String) : Except String (List Nat) :=
  match getResult with
  | some e => .error e
  | none =>
    -- the read error `_readError` is intentionally ignored by the source
    .ok bodyRead

/-! ## Delete (cos.go lines 390-443) -/

/-- Remote object keys, as character lists (Go indexes string bytes; the
driver only ever inspects the character at the prefix-length position). -/
abbrev Key := List Char

/-- Boundary test from the Delete page scan:
len(key) > len(cosPath) && key[len(cosPath)] != '/'. -/
def notSubpath (cp k : Key) : Bool :=
  decide (cp.length < k.length) && !(k.getD cp.length '/' == '/')

/-- Page scan of driver.Delete: keys are accumulated in order until the
first key that fails the boundary test; the rest of the page is dropped. -/
def accumulatePage (cp : Key) : List Key → List Key
  | [] => []
  | k :: ks => if notSubpath cp k then [] else k :: accumulatePage cp ks

/-- Modelled from the spec: the transport collaborator's paged bucket
listing (Bucket.Get with a prefix, no delimiter, MaxKeys = listMax)
returns the first listMax keys of the bucket that carry the prefix, in
bucket order. -/
def pageListing (keys : List Key) (cp : Key) : List Key :=
  (keys.filter (fun k => cp.isPrefixOf k)).take listMax

/-- Modelled from the spec: DeleteMulti removes exactly the named keys
from the bucket. -/
def removeKeys (keys dels : List Key) : List Key :=
  keys.filter (fun k => !(dels.contains k))

/-- Observable outcome of driver.Delete: the returned value
(.error () = PathNotFoundError, .ok () = nil), the keys actually removed,
the keys remaining in the bucket, and for every page processed by the
loop the pair (page length, number of keys accumulated from it). -/
structure DeleteRun where
  returned : Except Unit Unit
  deleted : List Key
  remaining : List Key
  pages : List (Nat × Nat)

/-- Loop of driver.Delete: list a page, scan it with the boundary rule,
bulk-delete the accumulated keys (consuming the next injected DeleteMulti
outcome; on a transport error the source returns nil immediately,
swallowing the error), stop after a partially consumed page, otherwise
list again.  The loop is written with explicit fuel; every iteration that
continues has bulk-deleted a whole non-empty page from the bucket, so
fuel = keys.length + 1 runs the source loop to completion and the
fuel-exhaustion branch is never reached from cosDelete. -/
def deleteLoop (cp : Key) : Nat → List Key → List (Option String) → DeleteRun
  | 0, keys, _ =>
    { returned := .ok (), deleted := [], remaining := keys, pages := [] }
  | fuel + 1, keys, dms =>
    let page := pageListing keys cp
    if page.length = 0 then
      { returned := .ok (), deleted := [], remaining := keys, pages := [] }
    else
      let acc := accumulatePage cp page
      match dms.headD none with
      | some _ =>
        -- DeleteMulti failed: `if err != nil { return nil }` — the error is
        -- swallowed and nothing was removed
        { returned := .ok (), deleted := [], remaining := keys,
          pages := [(page.length, acc.length)] }
      | none =>
        let keys2 := removeKeys keys acc
        if acc.length < page.length then
          -- the page was only partially consumed: stop, no further paging
          { returned := .ok (), deleted := acc, remaining := keys2,
            pages := [(page.length, acc.length)] }
        else
          let rest := deleteLoop cp fuel keys2 (dms.drop 1)
          { returned := rest.returned, deleted := acc ++ rest.deleted,
            remaining := rest.remaining,
            pages := (page.length, acc.length) :: rest.pages }

/-- driver.Delete: if the initial listing returns zero keys, report
PathNotFoundError; otherwise run the page loop. -/
def cosDelete (cp : Key) (keys : List Key) (dms : List (Option String)) :
    DeleteRun :=
  if (pageListing keys cp).length = 0 then
    { returned := .error (), deleted := [], remaining := keys, pages := [] }
  else deleteLoop cp (keys.length + 1) keys dms

/-! ## Stat (cos.go lines 344-378) -/

/-- Listing entry as consumed by driver.Stat: key, size, and the
last-modified timestamp string. -/
structure ListEntry where
  key : Key
  size : Nat
  lastModified : String
deriving DecidableEq

/-- Response of the MaxKeys = 1 prefix listing issued by driver.Stat. -/
structure ListResponse where
  contents : List ListEntry
  commonPrefixes : List Key
deriving DecidableEq

/-- Result of driver.Stat: a file with size and modification time, a
directory, not-found, or the error returned when the timestamp fails to
parse. -/
inductive StatResult where
  | file (size : Nat) (modTime : Nat)
  | dir
  | notFound
  | parseError
deriving DecidableEq

/-- driver.Stat over the listing response; parseTime abstracts
time.Parse with the fixed time.RFC3339Nano format (none = parse failure,
which Stat returns as an error for that call). -/
def stat (parseTime : String → Option Nat) (cp : Key) (resp : ListResponse) :
    StatResult :=
  if resp.contents.length = 1 then
    let entry := resp.contents.headD { key := [], size := 0, lastModified := "" }
    if entry.key ≠ cp then .dir
    else
      match parseTime entry.lastModified with
      | none => .parseError
      | some t => .file entry.size t
  else if resp.commonPrefixes.length = 1 then .dir
  else .notFound

/-! ## Chunked writer (cos.go lines 477-678)

The writer only ever touches the single key it was created for, so the
mock store tracks one object slot plus the multipart state for that key. -/

/-- Byte strings, as lists of byte values. -/
abbrev Bytes := List Nat

/-- cos.Object as the writer uses it: ETag, PartNumber and Size.  Entity
tags are opaque; the mock store hands out distinct naturals. -/
structure CosObject where
  partNumber : Nat
  etag : Nat
  size : Nat
deriving DecidableEq

/-- One part as stored server-side: its part number, entity tag, and the
actual bytes that were uploaded for it. -/
structure StorePart where
  partNumber : Nat
  etag : Nat
  data : Bytes
deriving DecidableEq

/-- Modelled from the spec: the transport collaborator (the remote
multipart-upload store) for the writer's key.  It hands out fresh upload
ids and entity tags, keeps the parts uploaded under each upload id, holds
the current object for the key, and logs every completion (as the list of
assembled part sizes) and every abort. -/
structure Store where
  nextUploadID : Nat
  nextEtag : Nat
  parts : Nat → List StorePart
  object : Option Bytes
  completedLog : List (List Nat)
  abortLog : List Nat

/-- Modelled from the spec: InitiateMultipartUpload returns a fresh
upload id with no parts. -/
def Store.initiate (s : Store) : Nat × Store :=
  (s.nextUploadID,
   { s with
      nextUploadID := s.nextUploadID + 1,
      parts := fun u => if u = s.nextUploadID then [] else s.parts u })

/-- Modelled from the spec: UploadPart stores the bytes under the given
part number and returns the entity tag. -/
def Store.uploadPart (s : Store) (uid pn : Nat) (data : Bytes) : Nat × Store :=
  (s.nextEtag,
   { s with
      nextEtag := s.nextEtag + 1,
      parts := fun u =>
        if u = uid then
          s.parts uid ++ [{ partNumber := pn, etag := s.nextEtag, data := data }]
        else s.parts u })

/-- Modelled from the spec: UploadPartCopy copies the whole current object
of the key into a part of the given upload and returns the entity tag. -/
def Store.uploadPartCopy (s : Store) (uid pn : Nat) : Nat × Store :=
  (s.nextEtag,
   { s with
      nextEtag := s.nextEtag + 1,
      parts := fun u =>
        if u = uid then
          s.parts uid ++
            [{ partNumber := pn, etag := s.nextEtag, data := s.object.getD [] }]
        else s.parts u })

/-- Server-side lookup of a part by part number. -/
def findPart (ps : List StorePart) (pn : Nat) : Option StorePart :=
  ps.find? (fun q => q.partNumber == pn)

/-- Parts assembled by CompleteMultipartUpload: the submitted part records
are resolved against the uploaded parts, in submission order. -/
def assembleParts (ps : List StorePart) (recorded : List CosObject) :
    List StorePart :=
  recorded.filterMap (fun r => findPart ps r.partNumber)

/-- Modelled from the spec: CompleteMultipartUpload concatenates the
assembled parts into the key's new object and logs their sizes. -/
def Store.complete (s : Store) (uid : Nat) (recorded : List CosObject) : Store :=
  let assembled := assembleParts (s.parts uid) recorded
  { s with
      object := some ((assembled.map (fun q => q.data)).flatten),
      completedLog := s.completedLog ++ [assembled.map (fun q => q.data.length)] }

/-- Modelled from the spec: AbortMultipartUpload discards the upload;
the log records the aborted upload id. -/
def Store.abort (s : Store) (uid : Nat) : Store :=
  { s with abortLog := s.abortLog ++ [uid] }

/-- Modelled from the spec: Object.Get returns the key's current object. -/
def Store.getObject (s : Store) : Bytes :=
  s.object.getD []

/-- writer state (cos.go lines 491-502). -/
structure Writer where
  uploadID : Nat
  parts : List CosObject
  size : Nat
  readyPart : Bytes
  pendingPart : Bytes
  closed : Bool
  committed : Bool
  cancelled : Bool
deriving DecidableEq

/-- driver.newWriter (cos.go lines 477-489): size is the sum of the sizes
of the handed-over parts. -/
def newWriter (uploadID : Nat) (parts : List CosObject) : Writer :=
  { uploadID := uploadID, parts := parts,
    size := (parts.map (fun q => q.size)).sum,
    readyPart := [], pendingPart := [],
    closed := false, committed := false, cancelled := false }

/-- writer.flushPart (cos.go lines 646-678): no-op when both buffers are
empty; a pending buffer smaller than the chunk size is merged into ready;
the ready buffer is uploaded as part number len(parts)+1 and recorded
with its entity tag and part number only (the Size field of the recorded
cos.Object is left at its zero value); then pending is promoted to ready. -/
def flushPart (chunkSize : Nat) (w : Writer) (s : Store) : Writer × Store :=
  if w.readyPart.length = 0 ∧ w.pendingPart.length = 0 then (w, s)
  else
    let w :=
      if w.pendingPart.length < chunkSize then
        { w with readyPart := w.readyPart ++ w.pendingPart, pendingPart := [] }
      else w
    let partNumber := w.parts.length + 1
    let r := s.uploadPart w.uploadID partNumber w.readyPart
    ({ w with
        parts := w.parts ++ [{ partNumber := partNumber, etag := r.1, size := 0 }],
        readyPart := w.pendingPart, pendingPart := [] },
     r.2)

/-- Insertion of a part record into a list sorted by ascending part
number. -/
def insertByPN (x : CosObject) : List CosObject → List CosObject
  | [] => [x]
  | y :: ys =>
    if x.partNumber ≤ y.partNumber then x :: y :: ys else y :: insertByPN x ys

/-- sort.Sort(cos.ObjectList(...)) from writer.Write: sort the submitted
part records by ascending part number. -/
def sortByPartNumber : List CosObject → List CosObject
  | [] => []
  | x :: xs => insertByPN x (sortByPartNumber xs)

/-- Small-last-part repair at the top of writer.Write (cos.go lines
513-557): when the last recorded part's Size field is below minChunkSize,
complete the current upload (with part records carrying only part number
and entity tag, sorted ascending), initiate a fresh upload, and re-seed:
below minChunkSize of cumulative size, download the object into the ready
buffer and drop the part records; otherwise server-side-copy the object
as new part number 1. -/
def repairSmallLastPart (w : Writer) (s : Store) : Writer × Store :=
  match w.parts.getLast? with
  | none => (w, s)
  | some last =>
    if last.size < minChunkSize then
      let optParts := sortByPartNumber (w.parts.map
        (fun q => { partNumber := q.partNumber, etag := q.etag, size := 0 }))
      let s1 := Store.complete s w.uploadID optParts
      let ini := s1.initiate
      let w1 := { w with uploadID := ini.1 }
      if w1.size < minChunkSize then
        ({ w1 with parts := [], readyPart := ini.2.getObject }, ini.2)
      else
        let cpy := ini.2.uploadPartCopy ini.1 1
        ({ w1 with parts := [{ partNumber := 1, etag := cpy.1, size := 0 }] },
         cpy.2)
    else (w, s)

/-- Ready-buffer top-up from the Write loop: move bytes from p into the
buffer until the buffer holds chunkSize bytes or p is exhausted; returns
the new buffer, the rest of p, and the number of bytes consumed. -/
def topUpBuffer (chunkSize : Nat) (buf p : Bytes) : Bytes × Bytes × Nat :=
  let needed := chunkSize - buf.length
  if 0 < needed then
    if needed ≤ p.length then (buf ++ p.take needed, p.drop needed, needed)
    else (buf ++ p, [], p.length)
  else (buf, p, 0)

/-- Loop of writer.Write (cos.go lines 561-591): top up ready, then top up
pending; when pending becomes full, flush.  Fuel bounds the iterations;
every iteration either consumes input or exits, so fuel = p.length + 2 is
enough (the source would loop forever only in the unreachable state where
both buffers are already full on entry). -/
def writeLoop (chunkSize : Nat) :
    Nat → Writer → Store → Bytes → Nat → Writer × Store × Nat
  | 0, w, s, _, n => (w, s, n)
  | fuel + 1, w, s, p, n =>
    if p.length = 0 then (w, s, n)
    else
      let tr := topUpBuffer chunkSize w.readyPart p
      let w1 := { w with readyPart := tr.1 }
      let p1 := tr.2.1
      let n1 := n + tr.2.2
      let neededP := chunkSize - w1.pendingPart.length
      if 0 < neededP then
        if neededP ≤ p1.length then
          let w2 := { w1 with pendingPart := w1.pendingPart ++ p1.take neededP }
          let fl := flushPart chunkSize w2 s
          writeLoop chunkSize fuel fl.1 fl.2 (p1.drop neededP) (n1 + neededP)
        else
          writeLoop chunkSize fuel
            { w1 with pendingPart := w1.pendingPart ++ p1 } s [] (n1 + p1.length)
      else
        writeLoop chunkSize fuel w1 s p1 n1

/-- writer.Write (cos.go lines 504-595): reject on a terminal flag, run the
small-last-part repair at most once, then feed the bytes through the
double-buffering loop, and finally add the consumed count to the
cumulative size.  The mock transport always succeeds, so the mid-loop
error returns of the source do not arise. -/
def write (chunkSize : Nat) (w : Writer) (s : Store) (p : Bytes) :
    Except String (Writer × Store × Nat) :=
  if w.closed then .error "already closed"
  else if w.committed then .error "already committed"
  else if w.cancelled then .error "already cancelled"
  else
    let rp := repairSmallLastPart w s
    let lp := writeLoop chunkSize (p.length + 2) rp.1 rp.2 p 0
    .ok ({ lp.1 with size := lp.1.size + lp.2.2 }, lp.2.1, lp.2.2)

/-- writer.Close (cos.go lines 601-607): fails only when already closed;
sets closed and flushes the remaining buffered bytes; neither completes
nor aborts the upload. -/
def close (chunkSize : Nat) (w : Writer) (s : Store) :
    Except String (Writer × Store) :=
  if w.closed then .error "already closed"
  else
    .ok (flushPart chunkSize { w with closed := true } s)

/-- writer.Cancel (cos.go lines 609-618): fails when already closed or
committed (but not when already cancelled); sets cancelled and aborts. -/
def cancel (w : Writer) (s : Store) : Except String (Writer × Store) :=
  if w.closed then .error "already closed"
  else if w.committed then .error "already committed"
  else
    .ok ({ w with cancelled := true }, Store.abort s w.uploadID)

/-- writer.Commit (cos.go lines 620-642): fails on any terminal flag;
flushes, sets committed, completes the upload with the recorded parts. -/
def commit (chunkSize : Nat) (w : Writer) (s : Store) :
    Except String (Writer × Store) :=
  if w.closed then .error "already closed"
  else if w.committed then .error "already committed"
  else if w.cancelled then .error "already cancelled"
  else
    let fl := flushPart chunkSize w s
    let w1 := { fl.1 with committed := true }
    .ok (w1, Store.complete fl.2 w1.uploadID w1.parts)

/-- Calls of the writer protocol. -/
inductive Call where
  | write (p : Bytes)
  | close
  | commit
  | cancel
deriving DecidableEq

/-- One call against the writer: the new state and the returned error
(none = success).  A rejected call leaves writer and store unchanged. -/
def step (chunkSize : Nat) (ws : Writer × Store) : Call → (Writer × Store) × Option String
  | .write p =>
    match write chunkSize ws.1 ws.2 p with
    | .ok r => ((r.1, r.2.1), none)
    | .error e => (ws, some e)
  | .close =>
    match close chunkSize ws.1 ws.2 with
    | .ok r => (r, none)
    | .error e => (ws, some e)
  | .commit =>
    match commit chunkSize ws.1 ws.2 with
    | .ok r => (r, none)
    | .error e => (ws, some e)
  | .cancel =>
    match cancel ws.1 ws.2 with
    | .ok r => (r, none)
    | .error e => (ws, some e)

/-- Run a sequence of calls, collecting each call's returned error. -/
def run (chunkSize : Nat) (ws : Writer × Store) :
    List Call → (Writer × Store) × List (Option String)
  | [] => (ws, [])
  | call :: rest =>
    let r := step chunkSize ws call
    let rr := run chunkSize r.1 rest
    (rr.1, r.2 :: rr.2)

/-- The empty store. -/
def initialStore : Store :=
  { nextUploadID := 0, nextEtag := 0, parts := fun _ => [], object := none,
    completedLog := [], abortLog := [] }

/-- driver.Writer with append = false over the empty store: initiate a
fresh multipart upload and hand the writer no parts. -/
def freshWriterStore : Writer × Store :=
  let ini := initialStore.initiate
  (newWriter ini.1 [], ini.2)

/-- Successful calls of a given kind in a run: calls are paired with their
returned errors and the matching successes are counted. -/
def callSuccessCount (target : Call → Bool) (calls : List Call)
    (results : List (Option String)) : Nat :=
  ((calls.zip results).filter (fun cr => target cr.1 && cr.2.isNone)).length

/-- Test for Commit or Cancel calls. -/
def isCommitOrCancel : Call → Bool
  | .commit => true
  | .cancel => true
  | _ => false

/-- Test for Commit calls. -/
def isCommit : Call → Bool
  | .commit => true
  | _ => false

/-- Test for Cancel calls. -/
def isCancel : Call → Bool
  | .cancel => true
  | _ => false

/-! ## Part-numbering bookkeeping for the writer proofs -/

/-- The elements of a list carry consecutive numbers k, k+1, ... under the
projection pn. -/
def numberedFrom (pn : α → Nat) : Nat → List α → Prop
  | _, [] => True
  | k, x :: xs => pn x = k ∧ numberedFrom pn (k + 1) xs

/-! ## Writer invariants -/

/-- Byte sizes of the parts stored under an upload id. -/
def uploadedSizes (s : Store) (uid : Nat) : List Nat :=
  (s.parts uid).map (fun q => q.data.length)

/-- Invariant maintained across the Write loop: recorded and uploaded
parts correspond one-to-one with part numbers 1..k, every uploaded part of
the current upload holds at least minChunkSize bytes, and the two buffers
respect the double-buffering discipline (ready at most a chunk, pending
strictly below a chunk, pending non-empty only when ready is full). -/
structure LoopInv (c : Nat) (w : Writer) (s : Store) : Prop where
  recNums : numberedFrom CosObject.partNumber 1 w.parts
  storeNums : numberedFrom StorePart.partNumber 1 (s.parts w.uploadID)
  storeLen : (s.parts w.uploadID).length = w.parts.length
  bigParts : ∀ q ∈ s.parts w.uploadID, minChunkSize ≤ q.data.length
  readyLe : w.readyPart.length ≤ c
  pendingLt : w.pendingPart.length < c
  pendingReady : 0 < w.pendingPart.length → w.readyPart.length = c

/-- Full invariant of a live writer between calls: the loop invariant,
all terminal flags clear, exact size accounting, and every completion
logged so far satisfies the minimum-size rule on its non-final parts. -/
structure WInv (c : Nat) (w : Writer) (s : Store) : Prop where
  closedF : w.closed = false
  committedF : w.committed = false
  cancelledF : w.cancelled = false
  loop : LoopInv c w s
  sizeAcct : w.size = (uploadedSizes s w.uploadID).sum
      + w.readyPart.length + w.pendingPart.length
  logOK : ∀ entry ∈ s.completedLog, ∀ x ∈ entry.dropLast, minChunkSize ≤ x

/-! ## Writer construction, append = false (cos.go lines 237-246) -/

/-- Response value of InitiateMultipartUpload as read by driver.Writer. -/
structure InitiateResult where
  uploadID : Nat
deriving DecidableEq

/-- driver.Writer for append = false, as a function of the transport's
InitiateMultipartUpload outcome (response value, error).  The source reads
`multi.UploadID` before checking `err`; a nil response value (`none`)
therefore crashes before the error branch is reached, modelled as the
outer `none`. -/
def writerNoAppend (multi : Option InitiateResult) (err : Option String) :
    Option (Except String Nat) :=
  match multi with
  | none => none
  | some m =>
    let uploadID := m.uploadID
    match err with
    | some e => some (.error e)
    | none => some (.ok uploadID)

/-- A writer that is already closed, for concrete checks. -/
def closedWriter : Writer :=
  { uploadID := 0, parts := [], size := 0, readyPart := [], pendingPart := [],
    closed := true, committed := false, cancelled := false }

/-! ## Lemmas and supporting facts -/

theorem dropWhile_idem (p : α → Bool) (l : List α) :
    (l.dropWhile p).dropWhile p = l.dropWhile p := by
  induction l with
  | nil => rfl
  | cons a t ih =>
    by_cases h : p a
    · simp [List.dropWhile_cons, h, ih]
    · simp [List.dropWhile_cons, h]

theorem accumulatePage_eq_takeWhile (cp : Key) (page : List Key) :
    accumulatePage cp page = page.takeWhile (fun k => !(notSubpath cp k)) := by
  induction page with
  | nil => rfl
  | cons k ks ih =>
    by_cases h : notSubpath cp k
    · simp [accumulatePage, h, List.takeWhile_cons]
    · simp [accumulatePage, h, List.takeWhile_cons, ih]

theorem mem_accumulatePage {cp k : Key} {page : List Key}
    (h : k ∈ accumulatePage cp page) : notSubpath cp k = false := by
  rw [accumulatePage_eq_takeWhile] at h
  have := List.mem_takeWhile_imp h
  simpa using this

theorem mem_removeKeys {keys dels : List Key} {k : Key}
    (hk : k ∈ keys) (hnd : k ∉ dels) : k ∈ removeKeys keys dels := by
  rw [removeKeys]
  refine List.mem_filter.mpr ⟨hk, ?_⟩
  simpa using hnd

theorem accumulatePage_length_le (cp : Key) (page : List Key) :
    (accumulatePage cp page).length ≤ page.length := by
  rw [accumulatePage_eq_takeWhile]
  exact (List.takeWhile_sublist _).length_le

theorem deleteLoop_deleted_boundary (cp : Key) :
    ∀ fuel keys dms, ∀ k ∈ (deleteLoop cp fuel keys dms).deleted,
      notSubpath cp k = false := by
  intro fuel
  induction fuel with
  | zero => intro keys dms k hk; simp [deleteLoop] at hk
  | succ fuel ih =>
    intro keys dms k hk
    rw [deleteLoop] at hk
    by_cases h0 : (pageListing keys cp).length = 0
    · simp [h0] at hk
    · simp only [h0, if_false] at hk
      cases hdm : dms.headD none with
      | some e => rw [hdm] at hk; simp at hk
      | none =>
        rw [hdm] at hk
        by_cases h1 : (accumulatePage cp (pageListing keys cp)).length
            < (pageListing keys cp).length
        · simp only [h1, if_true] at hk
          exact mem_accumulatePage hk
        · simp only [h1, if_false] at hk
          simp only [List.mem_append] at hk
          rcases hk with hk | hk
          · exact mem_accumulatePage hk
          · exact ih _ _ k hk

theorem deleteLoop_keeps_boundary_keys (cp : Key) :
    ∀ fuel keys dms, ∀ k ∈ keys, notSubpath cp k = true →
      k ∈ (deleteLoop cp fuel keys dms).remaining := by
  intro fuel
  induction fuel with
  | zero => intro keys dms k hk _; simpa [deleteLoop] using hk
  | succ fuel ih =>
    intro keys dms k hk hb
    have hnacc : ∀ page, k ∉ accumulatePage cp page := by
      intro page hmem
      rw [mem_accumulatePage hmem] at hb
      exact Bool.false_ne_true hb
    rw [deleteLoop]
    by_cases h0 : (pageListing keys cp).length = 0
    · simpa [h0] using hk
    · simp only [h0, if_false]
      cases hdm : dms.headD none with
      | some e => simpa using hk
      | none =>
        by_cases h1 : (accumulatePage cp (pageListing keys cp)).length
            < (pageListing keys cp).length
        · simp only [h1, if_true]
          exact mem_removeKeys hk (hnacc _)
        · simp only [h1, if_false]
          exact ih _ _ k (mem_removeKeys hk (hnacc _)) hb

theorem deleteLoop_pages_full (cp : Key) :
    ∀ fuel keys dms, ∀ e ∈ (deleteLoop cp fuel keys dms).pages.dropLast,
      e.2 = e.1 := by
  intro fuel
  induction fuel with
  | zero => intro keys dms e he; simp [deleteLoop] at he
  | succ fuel ih =>
    intro keys dms e he
    rw [deleteLoop] at he
    by_cases h0 : (pageListing keys cp).length = 0
    · simp [h0] at he
    · simp only [h0, if_false] at he
      cases hdm : dms.headD none with
      | some v => rw [hdm] at he; simp at he
      | none =>
        rw [hdm] at he
        by_cases h1 : (accumulatePage cp (pageListing keys cp)).length
            < (pageListing keys cp).length
        · simp only [h1, if_true] at he
          simp at he
        · simp only [h1, if_false] at he
          have hfull : (accumulatePage cp (pageListing keys cp)).length
              = (pageListing keys cp).length := by
            have := accumulatePage_length_le cp (pageListing keys cp)
            omega
          cases hp : (deleteLoop cp fuel
              (removeKeys keys (accumulatePage cp (pageListing keys cp)))
              (dms.drop 1)).pages with
          | nil => rw [hp] at he; simp at he
          | cons q qs =>
            rw [hp, List.dropLast_cons_of_ne_nil (List.cons_ne_nil q qs)] at he
            rcases List.mem_cons.mp he with rfl | he
            · exact hfull
            · have := ih (removeKeys keys (accumulatePage cp (pageListing keys cp)))
                (dms.drop 1) e
              rw [hp] at this
              exact this he

theorem numberedFrom_append_singleton {pn : α → Nat} {l : List α} {x : α} :
    ∀ {k}, numberedFrom pn k l → pn x = k + l.length →
      numberedFrom pn k (l ++ [x]) := by
  induction l with
  | nil => intro k _ hx; exact ⟨by simpa using hx, trivial⟩
  | cons a t ih =>
    intro k h hx
    exact ⟨h.1, ih h.2 (by simpa [Nat.add_comm, Nat.add_assoc,
      Nat.add_left_comm] using hx)⟩

theorem numberedFrom_mem_ge {pn : α → Nat} {l : List α} {x : α} :
    ∀ {k}, numberedFrom pn k l → x ∈ l → k ≤ pn x := by
  induction l with
  | nil => intro k _ hx; cases hx
  | cons a t ih =>
    intro k h hx
    rcases List.mem_cons.mp hx with rfl | hx
    · exact h.1.ge
    · exact le_trans (Nat.le_succ k) (ih h.2 hx)

theorem findPart_numbered {ps : List StorePart} :
    ∀ {k} (i : Nat) (h : i < ps.length),
      numberedFrom StorePart.partNumber k ps →
      findPart ps (k + i) = some (ps.get ⟨i, h⟩) := by
  induction ps with
  | nil => intro k i h hn; simp at h
  | cons q qs ih =>
    intro k i h hn
    cases i with
    | zero =>
      rw [findPart]
      simp [List.find?_cons, hn.1]
    | succ i =>
      rw [findPart, List.find?_cons]
      have hne : (q.partNumber == k + (i + 1)) = false := by
        rw [beq_eq_false_iff_ne, hn.1]; omega
      rw [hne]
      have := ih i (by simpa using Nat.lt_of_succ_lt_succ h) hn.2
      rw [findPart] at this
      simpa [Nat.add_comm, Nat.add_assoc, Nat.add_left_comm] using this

theorem assembleParts_drop {ps : List StorePart}
    (hps : numberedFrom StorePart.partNumber 1 ps) :
    ∀ (rs : List CosObject) (j : Nat),
      numberedFrom CosObject.partNumber (j + 1) rs →
      j + rs.length = ps.length →
      rs.filterMap (fun r => findPart ps r.partNumber) = ps.drop j := by
  intro rs
  induction rs with
  | nil =>
    intro j _ hlen
    simp only [List.length_nil, Nat.add_zero] at hlen
    have hdrop : ps.drop j = [] := by
      apply List.drop_eq_nil_of_le
      omega
    simp [hdrop]
  | cons r rt ih =>
    intro j hn hlen
    have hj : j < ps.length := by simp at hlen; omega
    have hfind : findPart ps r.partNumber = some (ps.get ⟨j, hj⟩) := by
      have h1 := findPart_numbered j hj hps
      rw [hn.1, Nat.add_comm j 1]
      exact h1
    simp only [List.filterMap_cons, hfind]
    have htail : rt.filterMap (fun r => findPart ps r.partNumber)
        = ps.drop (j + 1) := by
      refine ih (j + 1) ?_ ?_
      · simpa [Nat.add_comm, Nat.add_assoc, Nat.add_left_comm] using hn.2
      · simp at hlen ⊢; omega
    rw [htail]
    rw [List.drop_eq_getElem_cons hj]
    rfl

/-- assembleParts resolves a full, correctly numbered submission to exactly
the uploaded parts, in order. -/
theorem assembleParts_eq {ps : List StorePart} {rs : List CosObject}
    (hps : numberedFrom StorePart.partNumber 1 ps)
    (hrs : numberedFrom CosObject.partNumber 1 rs)
    (hlen : rs.length = ps.length) :
    assembleParts ps rs = ps := by
  rw [assembleParts]
  have := assembleParts_drop hps rs 0 (by simpa using hrs) (by simpa using hlen)
  simpa using this

theorem sortByPartNumber_of_numbered {l : List CosObject} :
    ∀ {k}, numberedFrom CosObject.partNumber k l → sortByPartNumber l = l := by
  induction l with
  | nil => intro k _; rfl
  | cons x xs ih =>
    intro k h
    rw [sortByPartNumber, ih h.2]
    cases xs with
    | nil => rfl
    | cons y ys =>
      rw [insertByPN, if_pos]
      rw [h.1, h.2.1]
      omega

theorem numberedFrom_map_zero {l : List CosObject} :
    ∀ {k}, numberedFrom CosObject.partNumber k l →
      numberedFrom CosObject.partNumber k
        (l.map (fun q => { partNumber := q.partNumber, etag := q.etag,
                           size := 0 : CosObject })) := by
  induction l with
  | nil => intro _ _; trivial
  | cons x xs ih => intro k h; exact ⟨h.1, ih h.2⟩

theorem sum_ge_of_forall_mem {l : List α} {f : α → Nat} {m : Nat}
    (h : ∀ q ∈ l, m ≤ f q) (hne : l ≠ []) : m ≤ (l.map f).sum := by
  cases l with
  | nil => exact absurd rfl hne
  | cons a t =>
    have := h a (List.mem_cons_self a t)
    simp only [List.map_cons, List.sum_cons]
    omega

theorem topUpBuffer_facts (c : Nat) (buf p : Bytes) (hb : buf.length ≤ c) :
    (topUpBuffer c buf p).1.length = buf.length + (topUpBuffer c buf p).2.2 ∧
    (topUpBuffer c buf p).2.1.length + (topUpBuffer c buf p).2.2 = p.length ∧
    (topUpBuffer c buf p).1.length ≤ c ∧
    (0 < (topUpBuffer c buf p).2.1.length → (topUpBuffer c buf p).1.length = c) := by
  rw [topUpBuffer]
  by_cases h0 : 0 < c - buf.length
  · rw [if_pos h0]
    by_cases h1 : c - buf.length ≤ p.length
    · rw [if_pos h1]
      refine ⟨?_, ?_, ?_, ?_⟩ <;>
        simp [List.length_append, List.length_take, List.length_drop] <;> omega
    · rw [if_neg h1]
      refine ⟨?_, ?_, ?_, ?_⟩ <;> simp [List.length_append] <;> omega
  · rw [if_neg h0]
    refine ⟨?_, ?_, ?_, ?_⟩ <;> simp <;> omega

theorem flushPart_of_pending_full (c : Nat) (w : Writer) (s : Store)
    (hpending : w.pendingPart.length = c) (hc : 0 < c) :
    flushPart c w s =
      ({ w with
          parts := w.parts ++
            [{ partNumber := w.parts.length + 1, etag := s.nextEtag, size := 0 }],
          readyPart := w.pendingPart, pendingPart := [] },
       { s with
          nextEtag := s.nextEtag + 1,
          parts := fun u =>
            if u = w.uploadID then
              s.parts w.uploadID ++
                [{ partNumber := w.parts.length + 1, etag := s.nextEtag,
                   data := w.readyPart }]
            else s.parts u }) := by
  rw [flushPart]
  rw [if_neg (by omega)]
  rw [if_neg (by omega)]
  rfl

theorem flushPart_of_pending_full_fst (c : Nat) (w : Writer) (s : Store)
    (hpending : w.pendingPart.length = c) (hc : 0 < c) :
    (flushPart c w s).1 =
      { w with
          parts := w.parts ++
            [{ partNumber := w.parts.length + 1, etag := s.nextEtag, size := 0 }],
          readyPart := w.pendingPart, pendingPart := [] } := by
  rw [flushPart_of_pending_full c w s hpending hc]

theorem flushPart_of_pending_full_snd (c : Nat) (w : Writer) (s : Store)
    (hpending : w.pendingPart.length = c) (hc : 0 < c) :
    (flushPart c w s).2 =
      { s with
          nextEtag := s.nextEtag + 1,
          parts := fun u =>
            if u = w.uploadID then
              s.parts w.uploadID ++
                [{ partNumber := w.parts.length + 1, etag := s.nextEtag,
                   data := w.readyPart }]
            else s.parts u } := by
  rw [flushPart_of_pending_full c w s hpending hc]

theorem flushPart_of_empty (c : Nat) (w : Writer) (s : Store)
    (hready : w.readyPart.length = 0) (hpending : w.pendingPart.length = 0) :
    flushPart c w s = (w, s) := by
  rw [flushPart, if_pos ⟨hready, hpending⟩]

theorem flushPart_of_merge (c : Nat) (w : Writer) (s : Store)
    (hpending : w.pendingPart.length < c)
    (hne : ¬(w.readyPart.length = 0 ∧ w.pendingPart.length = 0)) :
    flushPart c w s =
      ({ w with
          parts := w.parts ++
            [{ partNumber := w.parts.length + 1, etag := s.nextEtag, size := 0 }],
          readyPart := [], pendingPart := [] },
       { s with
          nextEtag := s.nextEtag + 1,
          parts := fun u =>
            if u = w.uploadID then
              s.parts w.uploadID ++
                [{ partNumber := w.parts.length + 1, etag := s.nextEtag,
                   data := w.readyPart ++ w.pendingPart }]
            else s.parts u }) := by
  rw [flushPart, if_neg hne, if_pos hpending]
  rfl

theorem writeLoop_succ_eq (c fuel : Nat) (w : Writer) (s : Store) (p : Bytes)
    (n : Nat) :
    writeLoop c (fuel + 1) w s p n =
      if p.length = 0 then (w, s, n)
      else
        let tr := topUpBuffer c w.readyPart p
        let w1 := { w with readyPart := tr.1 }
        let p1 := tr.2.1
        let n1 := n + tr.2.2
        let neededP := c - w1.pendingPart.length
        if 0 < neededP then
          if neededP ≤ p1.length then
            let w2 := { w1 with pendingPart := w1.pendingPart ++ p1.take neededP }
            let fl := flushPart c w2 s
            writeLoop c fuel fl.1 fl.2 (p1.drop neededP) (n1 + neededP)
          else
            writeLoop c fuel
              { w1 with pendingPart := w1.pendingPart ++ p1 } s [] (n1 + p1.length)
        else
          writeLoop c fuel w1 s p1 n1 := rfl

theorem writeLoop_preserves (c : Nat) (hmin : minChunkSize ≤ c) :
    ∀ fuel (p : Bytes) (w : Writer) (s : Store) (n : Nat),
      LoopInv c w s → p.length + 1 ≤ fuel →
      LoopInv c (writeLoop c fuel w s p n).1 (writeLoop c fuel w s p n).2.1 ∧
      (writeLoop c fuel w s p n).1.uploadID = w.uploadID ∧
      (writeLoop c fuel w s p n).1.size = w.size ∧
      (writeLoop c fuel w s p n).1.closed = w.closed ∧
      (writeLoop c fuel w s p n).1.committed = w.committed ∧
      (writeLoop c fuel w s p n).1.cancelled = w.cancelled ∧
      (writeLoop c fuel w s p n).2.1.completedLog = s.completedLog ∧
      (uploadedSizes (writeLoop c fuel w s p n).2.1 w.uploadID).sum
          + (writeLoop c fuel w s p n).1.readyPart.length
          + (writeLoop c fuel w s p n).1.pendingPart.length + n
        = (uploadedSizes s w.uploadID).sum + w.readyPart.length
          + w.pendingPart.length + (writeLoop c fuel w s p n).2.2 := by
  have hminpos : 0 < minChunkSize := by decide
  have hc : 0 < c := lt_of_lt_of_le hminpos hmin
  intro fuel
  induction fuel with
  | zero =>
    intro p w s n hinv hf
    exact absurd hf (by omega)
  | succ fuel ih =>
    intro p w s n hinv hf
    by_cases hp : p.length = 0
    · rw [writeLoop_succ_eq, if_pos hp]
      exact ⟨hinv, rfl, rfl, rfl, rfl, rfl, rfl, rfl⟩
    · obtain ⟨ht1, ht2, ht3, ht4⟩ := topUpBuffer_facts c w.readyPart p hinv.readyLe
      have hneed : 0 < c - w.pendingPart.length := by
        have := hinv.pendingLt; omega
      rw [writeLoop_succ_eq, if_neg hp]
      simp only
      rw [if_pos hneed]
      by_cases hcase : c - w.pendingPart.length
          ≤ (topUpBuffer c w.readyPart p).2.1.length
      · -- pending fills up: flush, then continue on the rest
        rw [if_pos hcase]
        have hready1 : (topUpBuffer c w.readyPart p).1.length = c :=
          ht4 (by omega)
        have hpend2 : (w.pendingPart
            ++ (topUpBuffer c w.readyPart p).2.1.take
                (c - w.pendingPart.length)).length = c := by
          rw [List.length_append, List.length_take]
          omega
        rw [flushPart_of_pending_full_fst c _ s hpend2 hc,
            flushPart_of_pending_full_snd c _ s hpend2 hc]
        set w3 : Writer :=
          { uploadID := w.uploadID,
            parts := w.parts ++
              [{ partNumber := w.parts.length + 1, etag := s.nextEtag, size := 0 }],
            size := w.size,
            readyPart := w.pendingPart
              ++ (topUpBuffer c w.readyPart p).2.1.take (c - w.pendingPart.length),
            pendingPart := [],
            closed := w.closed, committed := w.committed,
            cancelled := w.cancelled } with hw3
        set s3 : Store :=
          { nextUploadID := s.nextUploadID, nextEtag := s.nextEtag + 1,
            parts := fun u =>
              if u = w.uploadID then
                s.parts w.uploadID ++
                  [{ partNumber := w.parts.length + 1, etag := s.nextEtag,
                     data := (topUpBuffer c w.readyPart p).1 }]
              else s.parts u,
            object := s.object, completedLog := s.completedLog,
            abortLog := s.abortLog } with hs3
        have hparts3 : s3.parts w3.uploadID = s.parts w.uploadID ++
            [{ partNumber := w.parts.length + 1, etag := s.nextEtag,
               data := (topUpBuffer c w.readyPart p).1 }] := by
          rw [hs3, hw3]
          simp
        have hinv3 : LoopInv c w3 s3 := by
          refine ⟨?_, ?_, ?_, ?_, ?_, ?_, ?_⟩
          · exact numberedFrom_append_singleton hinv.recNums
              (by simp [Nat.add_comm])
          · rw [hparts3]
            refine numberedFrom_append_singleton hinv.storeNums ?_
            rw [hinv.storeLen]
            simp [Nat.add_comm]
          · rw [hparts3, hw3]
            simp [hinv.storeLen, Nat.add_comm]
          · rw [hparts3]
            intro q hq
            rcases List.mem_append.mp hq with hq | hq
            · exact hinv.bigParts q hq
            · rcases List.mem_singleton.mp hq with rfl
              simpa [hready1] using hmin
          · rw [hw3]
            simp only
            omega
          · rw [hw3]
            simpa using hc
          · rw [hw3]
            intro h
            simp at h
        have hfuel3 : ((topUpBuffer c w.readyPart p).2.1.drop
            (c - w.pendingPart.length)).length + 1 ≤ fuel := by
          rw [List.length_drop]
          omega
        obtain ⟨hL, hUid, hSize, hCl, hCo, hCa, hLog, hAcct⟩ :=
          ih _ w3 s3 (n + (topUpBuffer c w.readyPart p).2.2
            + (c - w.pendingPart.length)) hinv3 hfuel3
        have huid3 : w3.uploadID = w.uploadID := by rw [hw3]
        have hsizes3 : (uploadedSizes s3 w.uploadID).sum
            = (uploadedSizes s w.uploadID).sum
              + (topUpBuffer c w.readyPart p).1.length := by
          rw [uploadedSizes, ← huid3, hparts3]
          simp [uploadedSizes]
        refine ⟨hL, ?_, ?_, ?_, ?_, ?_, ?_, ?_⟩
        · rw [hUid, huid3]
        · rw [hSize, hw3]
        · rw [hCl, hw3]
        · rw [hCo, hw3]
        · rw [hCa, hw3]
        · rw [hLog, hs3]
        · rw [huid3] at hAcct
          rw [hsizes3] at hAcct
          have hr3 : w3.readyPart.length = c := by rw [hw3]; exact hpend2
          have hp3 : w3.pendingPart.length = 0 := by simp [hw3]
          rw [hr3, hp3] at hAcct
          omega
      · -- p is exhausted into pending: one tail call with empty input
        rw [if_neg hcase]
        set w2 : Writer :=
          { uploadID := w.uploadID, parts := w.parts, size := w.size,
            readyPart := (topUpBuffer c w.readyPart p).1,
            pendingPart := w.pendingPart ++ (topUpBuffer c w.readyPart p).2.1,
            closed := w.closed, committed := w.committed,
            cancelled := w.cancelled } with hw2
        have hinv2 : LoopInv c w2 s := by
          refine ⟨hinv.recNums, ?_, ?_, ?_, ?_, ?_, ?_⟩
          · rw [hw2]; exact hinv.storeNums
          · rw [hw2]; exact hinv.storeLen
          · rw [hw2]; exact hinv.bigParts
          · rw [hw2]; exact ht3
          · rw [hw2]
            simp only [List.length_append]
            omega
          · rw [hw2]
            simp only [List.length_append]
            intro h
            by_cases h21 : 0 < (topUpBuffer c w.readyPart p).2.1.length
            · exact ht4 h21
            · have hpr := hinv.pendingReady (by omega)
              omega
        have hfuel2 : ([] : Bytes).length + 1 ≤ fuel := by simp; omega
        obtain ⟨hL, hUid, hSize, hCl, hCo, hCa, hLog, hAcct⟩ :=
          ih [] w2 s (n + (topUpBuffer c w.readyPart p).2.2
            + (topUpBuffer c w.readyPart p).2.1.length) hinv2 hfuel2
        have huid2 : w2.uploadID = w.uploadID := by rw [hw2]
        refine ⟨hL, ?_, ?_, ?_, ?_, ?_, ?_, ?_⟩
        · rw [hUid, huid2]
        · rw [hSize, hw2]
        · rw [hCl, hw2]
        · rw [hCo, hw2]
        · rw [hCa, hw2]
        · exact hLog
        · rw [huid2] at hAcct
          have hr2 : w2.readyPart.length
              = w.readyPart.length + (topUpBuffer c w.readyPart p).2.2 := by
            rw [hw2]; exact ht1
          have hp2 : w2.pendingPart.length = w.pendingPart.length
              + (topUpBuffer c w.readyPart p).2.1.length := by
            rw [hw2]; simp
          rw [hr2, hp2] at hAcct
          omega

theorem length_flatten_data (l : List StorePart) :
    ((l.map (fun q => q.data)).flatten).length
      = (l.map (fun q => q.data.length)).sum := by
  rw [List.length_flatten, List.map_map]
  rfl

theorem repair_preserves (c : Nat) (w : Writer) (s : Store)
    (hmin : minChunkSize ≤ c) (hinv : WInv c w s) :
    WInv c (repairSmallLastPart w s).1 (repairSmallLastPart w s).2 := by
  cases hlast : w.parts.getLast? with
  | none =>
    simp only [repairSmallLastPart, hlast]
    exact hinv
  | some last =>
    by_cases hsz : last.size < minChunkSize
    · -- the repair fires
      have hne : w.parts ≠ [] := by
        intro h
        rw [h] at hlast
        simp at hlast
      have hstorene : s.parts w.uploadID ≠ [] := by
        apply List.ne_nil_of_length_pos
        rw [hinv.loop.storeLen]
        exact List.length_pos.mpr hne
      have hsum : minChunkSize ≤ (uploadedSizes s w.uploadID).sum :=
        sum_ge_of_forall_mem hinv.loop.bigParts hstorene
      have hge : ¬ w.size < minChunkSize := by
        have := hinv.sizeAcct
        omega
      have hopt : sortByPartNumber (w.parts.map
            (fun q => { partNumber := q.partNumber, etag := q.etag,
                        size := 0 : CosObject }))
          = w.parts.map (fun q => { partNumber := q.partNumber, etag := q.etag,
                                    size := 0 }) :=
        sortByPartNumber_of_numbered (numberedFrom_map_zero hinv.loop.recNums)
      have hoptnum : numberedFrom CosObject.partNumber 1
          (w.parts.map (fun q => { partNumber := q.partNumber, etag := q.etag,
                                   size := 0 : CosObject })) :=
        numberedFrom_map_zero hinv.loop.recNums
      have hasm : assembleParts (s.parts w.uploadID)
          (w.parts.map (fun q => { partNumber := q.partNumber, etag := q.etag,
                                   size := 0 })) = s.parts w.uploadID :=
        assembleParts_eq hinv.loop.storeNums hoptnum
          (by rw [List.length_map, hinv.loop.storeLen])
      simp only [repairSmallLastPart, hlast, if_pos hsz, hopt, Store.complete,
        hasm, Store.initiate, Store.getObject, Store.uploadPartCopy, if_neg hge]
      simp only [if_pos rfl, List.nil_append, Option.getD_some]
      refine ⟨hinv.closedF, hinv.committedF, hinv.cancelledF, ?_, ?_, ?_⟩
      · refine ⟨⟨rfl, trivial⟩, ?_, ?_, ?_, hinv.loop.readyLe,
          hinv.loop.pendingLt, hinv.loop.pendingReady⟩
        · simp only [if_pos rfl]
          exact ⟨rfl, trivial⟩
        · simp only [if_pos rfl]
          rfl
        · simp only [if_pos rfl]
          intro q hq
          rcases List.mem_singleton.mp hq with rfl
          simp only [length_flatten_data]
          exact hsum
      · simp only [uploadedSizes, if_pos rfl, eq_self_iff_true, if_true,
          List.nil_append, List.map_cons, List.map_nil, List.sum_cons,
          List.sum_nil, length_flatten_data]
        have := hinv.sizeAcct
        simp only [uploadedSizes] at this
        omega
      · intro entry hentry
        rcases List.mem_append.mp hentry with hentry | hentry
        · exact hinv.logOK entry hentry
        · rcases List.mem_singleton.mp hentry with rfl
          intro x hx
          have hx2 : x ∈ (s.parts w.uploadID).map (fun q => q.data.length) :=
            List.Sublist.subset (List.dropLast_sublist _) hx
          obtain ⟨q, hq, rfl⟩ := List.mem_map.mp hx2
          exact hinv.loop.bigParts q hq
    · simp only [repairSmallLastPart, hlast, if_neg hsz]
      exact hinv

theorem flushPart_of_merge_fst (c : Nat) (w : Writer) (s : Store)
    (hpending : w.pendingPart.length < c)
    (hne : ¬(w.readyPart.length = 0 ∧ w.pendingPart.length = 0)) :
    (flushPart c w s).1 =
      { w with
          parts := w.parts ++
            [{ partNumber := w.parts.length + 1, etag := s.nextEtag, size := 0 }],
          readyPart := [], pendingPart := [] } := by
  rw [flushPart_of_merge c w s hpending hne]

theorem flushPart_of_merge_snd (c : Nat) (w : Writer) (s : Store)
    (hpending : w.pendingPart.length < c)
    (hne : ¬(w.readyPart.length = 0 ∧ w.pendingPart.length = 0)) :
    (flushPart c w s).2 =
      { s with
          nextEtag := s.nextEtag + 1,
          parts := fun u =>
            if u = w.uploadID then
              s.parts w.uploadID ++
                [{ partNumber := w.parts.length + 1, etag := s.nextEtag,
                   data := w.readyPart ++ w.pendingPart }]
            else s.parts u } := by
  rw [flushPart_of_merge c w s hpending hne]

theorem write_preserves (c : Nat) (w : Writer) (s : Store) (p : Bytes)
    (hmin : minChunkSize ≤ c) (hinv : WInv c w s) :
    ∃ w2 s2 n, write c w s p = .ok (w2, s2, n) ∧ WInv c w2 s2 := by
  rw [write, if_neg (by simp [hinv.closedF]),
    if_neg (by simp [hinv.committedF]), if_neg (by simp [hinv.cancelledF])]
  have hrp := repair_preserves c w s hmin hinv
  set rp := repairSmallLastPart w s with hrpdef
  set lp := writeLoop c (p.length + 2) rp.1 rp.2 p 0 with hlpdef
  obtain ⟨hL, hUid, hSize, hCl, hCo, hCa, hLog, hAcct⟩ :=
    writeLoop_preserves c hmin (p.length + 2) p rp.1 rp.2 0 hrp.loop (by omega)
  rw [← hlpdef] at hL hUid hSize hCl hCo hCa hLog hAcct
  refine ⟨_, _, _, rfl, ?_⟩
  refine ⟨?_, ?_, ?_, ?_, ?_, ?_⟩
  · show lp.1.closed = false
    rw [hCl]
    exact hrp.closedF
  · show lp.1.committed = false
    rw [hCo]
    exact hrp.committedF
  · show lp.1.cancelled = false
    rw [hCa]
    exact hrp.cancelledF
  · exact ⟨hL.recNums, hL.storeNums, hL.storeLen, hL.bigParts, hL.readyLe,
      hL.pendingLt, hL.pendingReady⟩
  · show lp.1.size + lp.2.2
        = (uploadedSizes lp.2.1 lp.1.uploadID).sum
          + lp.1.readyPart.length + lp.1.pendingPart.length
    rw [hSize, hUid]
    have hsz := hrp.sizeAcct
    omega
  · show ∀ entry ∈ lp.2.1.completedLog, ∀ x ∈ entry.dropLast, minChunkSize ≤ x
    rw [hLog]
    exact hrp.logOK

theorem commit_preserves_log (c : Nat) (w : Writer) (s : Store)
    (hmin : minChunkSize ≤ c) (hinv : WInv c w s) :
    ∃ w2 s2, commit c w s = .ok (w2, s2) ∧
      ∀ entry ∈ s2.completedLog, ∀ x ∈ entry.dropLast, minChunkSize ≤ x := by
  have hminpos : 0 < minChunkSize := by decide
  have hentryOld : ∀ x ∈ uploadedSizes s w.uploadID, minChunkSize ≤ x := by
    intro x hx
    obtain ⟨q, hq, rfl⟩ := List.mem_map.mp hx
    exact hinv.loop.bigParts q hq
  rw [commit, if_neg (by simp [hinv.closedF]),
    if_neg (by simp [hinv.committedF]), if_neg (by simp [hinv.cancelledF])]
  by_cases hempty : w.readyPart.length = 0 ∧ w.pendingPart.length = 0
  · rw [flushPart_of_empty c w s hempty.1 hempty.2]
    refine ⟨_, _, rfl, ?_⟩
    have hasm : assembleParts (s.parts w.uploadID) w.parts = s.parts w.uploadID :=
      assembleParts_eq hinv.loop.storeNums hinv.loop.recNums hinv.loop.storeLen.symm
    simp only [Store.complete, hasm]
    intro entry hentry
    rcases List.mem_append.mp hentry with hentry | hentry
    · exact hinv.logOK entry hentry
    · rcases List.mem_singleton.mp hentry with rfl
      intro x hx
      exact hentryOld x (List.Sublist.subset (List.dropLast_sublist _) hx)
  · rw [flushPart_of_merge c w s hinv.loop.pendingLt hempty]
    refine ⟨_, _, rfl, ?_⟩
    have hnum2 : numberedFrom CosObject.partNumber 1 (w.parts ++
        [{ partNumber := w.parts.length + 1, etag := s.nextEtag, size := 0 }]) :=
      numberedFrom_append_singleton hinv.loop.recNums (by simp [Nat.add_comm])
    have hsnum2 : numberedFrom StorePart.partNumber 1 (s.parts w.uploadID ++
        [{ partNumber := w.parts.length + 1, etag := s.nextEtag,
           data := w.readyPart ++ w.pendingPart }]) := by
      refine numberedFrom_append_singleton hinv.loop.storeNums ?_
      rw [hinv.loop.storeLen]
      simp [Nat.add_comm]
    have hasm2 : assembleParts
        (s.parts w.uploadID ++
          [{ partNumber := w.parts.length + 1, etag := s.nextEtag,
             data := w.readyPart ++ w.pendingPart }])
        (w.parts ++
          [{ partNumber := w.parts.length + 1, etag := s.nextEtag, size := 0 }]) =
        s.parts w.uploadID ++
          [{ partNumber := w.parts.length + 1, etag := s.nextEtag,
             data := w.readyPart ++ w.pendingPart }] := by
      refine assembleParts_eq hsnum2 hnum2 ?_
      simp [hinv.loop.storeLen]
    simp only [Store.complete, eq_self_iff_true, if_true, hasm2]
    intro entry hentry
    rcases List.mem_append.mp hentry with hentry | hentry
    · exact hinv.logOK entry hentry
    · rcases List.mem_singleton.mp hentry with rfl
      intro x hx
      rw [List.map_append] at hx
      simp only [List.map_cons, List.map_nil] at hx
      rw [List.dropLast_concat] at hx
      exact hentryOld x hx

theorem step_write_preserves (c : Nat) (st : Writer × Store) (p : Bytes)
    (hmin : minChunkSize ≤ c) (hinv : WInv c st.1 st.2) :
    WInv c (step c st (Call.write p)).1.1 (step c st (Call.write p)).1.2 := by
  obtain ⟨w2, s2, n, heq, hinv2⟩ := write_preserves c st.1 st.2 p hmin hinv
  simp only [step, heq]
  exact hinv2

theorem run_writes_preserve (c : Nat) (hmin : minChunkSize ≤ c) :
    ∀ (ws : List Bytes) (st : Writer × Store), WInv c st.1 st.2 →
      WInv c (run c st (ws.map Call.write)).1.1
        (run c st (ws.map Call.write)).1.2 := by
  intro ws
  induction ws with
  | nil => intro st h; exact h
  | cons p ps ih =>
    intro st h
    simp only [List.map_cons, run]
    exact ih _ (step_write_preserves c st p hmin h)

theorem run_fst_append (c : Nat) (st : Writer × Store) (l1 l2 : List Call) :
    (run c st (l1 ++ l2)).1 = (run c (run c st l1).1 l2).1 := by
  induction l1 generalizing st with
  | nil => rfl
  | cons a t ih =>
    simp only [List.cons_append, run]
    exact ih _

theorem freshWriterStore_inv (c : Nat) (hmin : minChunkSize ≤ c) :
    WInv c freshWriterStore.1 freshWriterStore.2 := by
  have hminpos : 0 < minChunkSize := by decide
  have hparts : freshWriterStore.2.parts freshWriterStore.1.uploadID
      = [] := rfl
  have hlog : freshWriterStore.2.completedLog = [] := rfl
  refine ⟨rfl, rfl, rfl, ⟨trivial, ?_, ?_, ?_, ?_, ?_, ?_⟩, ?_, ?_⟩
  · rw [hparts]
    trivial
  · rw [hparts]
    rfl
  · rw [hparts]
    intro q hq
    cases hq
  · show ([] : Bytes).length ≤ c
    simp
  · show ([] : Bytes).length < c
    simp
    omega
  · intro h
    have hpend : freshWriterStore.1.pendingPart = [] := rfl
    rw [hpend] at h
    simp at h
  · show (0 : Nat) = (uploadedSizes freshWriterStore.2
        freshWriterStore.1.uploadID).sum
      + freshWriterStore.1.readyPart.length
      + freshWriterStore.1.pendingPart.length
    rw [uploadedSizes, hparts]
    rfl
  · intro entry hentry
    rw [hlog] at hentry
    cases hentry

/-! ## Terminal-state bookkeeping for the writer protocol -/

theorem flushPart_flags (c : Nat) (w : Writer) (s : Store) :
    (flushPart c w s).1.closed = w.closed ∧
    (flushPart c w s).1.committed = w.committed ∧
    (flushPart c w s).1.cancelled = w.cancelled := by
  rw [flushPart]
  by_cases h : w.readyPart.length = 0 ∧ w.pendingPart.length = 0
  · rw [if_pos h]
    exact ⟨rfl, rfl, rfl⟩
  · rw [if_neg h]
    by_cases h2 : w.pendingPart.length < c
    · rw [if_pos h2]
      exact ⟨rfl, rfl, rfl⟩
    · rw [if_neg h2]
      exact ⟨rfl, rfl, rfl⟩

theorem callSuccessCount_nil (target : Call → Bool) (results : List (Option String)) :
    callSuccessCount target [] results = 0 := rfl

theorem callSuccessCount_cons (target : Call → Bool) (a : Call)
    (calls : List Call) (x : Option String) (results : List (Option String)) :
    callSuccessCount target (a :: calls) (x :: results)
      = (if target a && x.isNone then 1 else 0)
        + callSuccessCount target calls results := by
  rw [callSuccessCount, callSuccessCount, List.zip_cons_cons, List.filter_cons]
  by_cases h : (target a && x.isNone) = true
  · rw [if_pos h, if_pos h, List.length_cons]
    omega
  · rw [if_neg h, if_neg h]
    omega

theorem callSuccessCount_mono (t1 t2 : Call → Bool)
    (h : ∀ a, t1 a = true → t2 a = true) :
    ∀ (calls : List Call) (results : List (Option String)),
      callSuccessCount t1 calls results ≤ callSuccessCount t2 calls results := by
  intro calls
  induction calls with
  | nil => intro results; simp [callSuccessCount_nil]
  | cons a t ih =>
    intro results
    cases results with
    | nil => rw [callSuccessCount, callSuccessCount]; simp [List.zip_nil_right]
    | cons x xs =>
      rw [callSuccessCount_cons, callSuccessCount_cons]
      have hih := ih xs
      by_cases h1 : (t1 a && x.isNone) = true
      · have h2 : (t2 a && x.isNone) = true := by
          have hab : t1 a = true ∧ x.isNone = true := by simpa using h1
          simp [h a hab.1, hab.2]
        rw [if_pos h1, if_pos h2]
        omega
      · rw [if_neg h1]
        by_cases h2 : (t2 a && x.isNone) = true
        · rw [if_pos h2]; omega
        · rw [if_neg h2]; omega

theorem step_write_status (c : Nat) (st : Writer × Store) (p : Bytes) :
    (step c st (Call.write p)).2 =
      (if st.1.closed then some "already closed"
       else if st.1.committed then some "already committed"
       else if st.1.cancelled then some "already cancelled" else none) := by
  by_cases h1 : st.1.closed
  · simp [step, write, h1]
  · by_cases h2 : st.1.committed
    · simp [step, write, h1, h2]
    · by_cases h3 : st.1.cancelled
      · simp [step, write, h1, h2, h3]
      · simp [step, write, h1, h2, h3]

theorem step_close_status (c : Nat) (st : Writer × Store) :
    (step c st Call.close).2 =
      (if st.1.closed then some "already closed" else none) := by
  by_cases h1 : st.1.closed
  · simp [step, close, h1]
  · simp [step, close, h1]

theorem step_cancel_status (c : Nat) (st : Writer × Store) :
    (step c st Call.cancel).2 =
      (if st.1.closed then some "already closed"
       else if st.1.committed then some "already committed" else none) := by
  by_cases h1 : st.1.closed
  · simp [step, cancel, h1]
  · by_cases h2 : st.1.committed
    · simp [step, cancel, h1, h2]
    · simp [step, cancel, h1, h2]

theorem step_commit_status (c : Nat) (st : Writer × Store) :
    (step c st Call.commit).2 =
      (if st.1.closed then some "already closed"
       else if st.1.committed then some "already committed"
       else if st.1.cancelled then some "already cancelled" else none) := by
  by_cases h1 : st.1.closed
  · simp [step, commit, h1]
  · by_cases h2 : st.1.committed
    · simp [step, commit, h1, h2]
    · by_cases h3 : st.1.cancelled
      · simp [step, commit, h1, h2, h3]
      · simp [step, commit, h1, h2, h3]

theorem step_error_unchanged (c : Nat) (st : Writer × Store) (call : Call) :
    (step c st call).2.isSome = true → (step c st call).1 = st := by
  intro h
  cases call with
  | write p =>
    cases hw : write c st.1 st.2 p with
    | ok r => simp [step, hw] at h
    | error e => simp [step, hw]
  | close =>
    cases hw : close c st.1 st.2 with
    | ok r => simp [step, hw] at h
    | error e => simp [step, hw]
  | commit =>
    cases hw : commit c st.1 st.2 with
    | ok r => simp [step, hw] at h
    | error e => simp [step, hw]
  | cancel =>
    cases hw : cancel st.1 st.2 with
    | ok r => simp [step, hw] at h
    | error e => simp [step, hw]

theorem isNone_eq_false_of_isSome {x : Option String}
    (h : x.isSome = true) : x.isNone = false := by
  cases x with
  | none => cases h
  | some e => rfl

theorem run_dead (c : Nat) :
    ∀ (calls : List Call) (st : Writer × Store),
      st.1.closed = true ∨ st.1.committed = true →
      callSuccessCount isCommitOrCancel calls (run c st calls).2 = 0 := by
  intro calls
  induction calls with
  | nil => intro st _; rfl
  | cons a t ih =>
    intro st h
    simp only [run]
    rw [callSuccessCount_cons]
    cases a with
    | write p =>
      have hst : (step c st (Call.write p)).2.isSome = true := by
        rw [step_write_status]
        rcases h with h | h
        · simp [h]
        · by_cases h1 : st.1.closed <;> simp [h1, h]
      have hcount : (isCommitOrCancel (Call.write p)
          && (step c st (Call.write p)).2.isNone) = false := by
        simp [isCommitOrCancel]
      rw [hcount, if_neg Bool.false_ne_true]
      rw [step_error_unchanged c st _ hst]
      simpa using ih st h
    | close =>
      have hcount : (isCommitOrCancel Call.close
          && (step c st Call.close).2.isNone) = false := by
        simp [isCommitOrCancel]
      rw [hcount, if_neg Bool.false_ne_true]
      have hflag : (step c st Call.close).1.1.closed = true ∨
          (step c st Call.close).1.1.committed = true := by
        by_cases h1 : st.1.closed
        · rw [step_error_unchanged c st _ (by rw [step_close_status]; simp [h1])]
          exact Or.inl h1
        · left
          simp only [step, close, if_neg (by simp [h1] :
            ¬ st.1.closed = true)]
          exact ((flushPart_flags c _ st.2).1)
      simpa using ih _ hflag
    | commit =>
      have hst : (step c st Call.commit).2.isSome = true := by
        rw [step_commit_status]
        rcases h with h | h
        · simp [h]
        · by_cases h1 : st.1.closed <;> simp [h1, h]
      have hcount : (isCommitOrCancel Call.commit
          && (step c st Call.commit).2.isNone) = false := by
        rw [isNone_eq_false_of_isSome hst]
        simp
      rw [hcount, if_neg Bool.false_ne_true]
      rw [step_error_unchanged c st _ hst]
      simpa using ih st h
    | cancel =>
      have hst : (step c st Call.cancel).2.isSome = true := by
        rw [step_cancel_status]
        rcases h with h | h
        · simp [h]
        · by_cases h1 : st.1.closed <;> simp [h1, h]
      have hcount : (isCommitOrCancel Call.cancel
          && (step c st Call.cancel).2.isNone) = false := by
        rw [isNone_eq_false_of_isSome hst]
        simp
      rw [hcount, if_neg Bool.false_ne_true]
      rw [step_error_unchanged c st _ hst]
      simpa using ih st h

theorem run_no_commit_after_cancelled (c : Nat) :
    ∀ (calls : List Call) (st : Writer × Store),
      st.1.cancelled = true →
      callSuccessCount isCommit calls (run c st calls).2 = 0 := by
  intro calls
  induction calls with
  | nil => intro st _; rfl
  | cons a t ih =>
    intro st h
    simp only [run]
    rw [callSuccessCount_cons]
    cases a with
    | write p =>
      have hst : (step c st (Call.write p)).2.isSome = true := by
        rw [step_write_status]
        by_cases h1 : st.1.closed
        · simp [h1]
        · by_cases h2 : st.1.committed <;> simp [h1, h2, h]
      have hcount : (isCommit (Call.write p)
          && (step c st (Call.write p)).2.isNone) = false := by
        simp [isCommit]
      rw [hcount, if_neg Bool.false_ne_true]
      rw [step_error_unchanged c st _ hst]
      simpa using ih st h
    | close =>
      have hcount : (isCommit Call.close
          && (step c st Call.close).2.isNone) = false := by
        simp [isCommit]
      rw [hcount, if_neg Bool.false_ne_true]
      have hflag : (step c st Call.close).1.1.cancelled = true := by
        by_cases h1 : st.1.closed
        · rw [step_error_unchanged c st _ (by rw [step_close_status]; simp [h1])]
          exact h
        · simp only [step, close, if_neg (by simp [h1] :
            ¬ st.1.closed = true)]
          rw [(flushPart_flags c _ st.2).2.2]
          exact h
      simpa using ih _ hflag
    | commit =>
      have hst : (step c st Call.commit).2.isSome = true := by
        rw [step_commit_status]
        by_cases h1 : st.1.closed
        · simp [h1]
        · by_cases h2 : st.1.committed <;> simp [h1, h2, h]
      have hcount : (isCommit Call.commit
          && (step c st Call.commit).2.isNone) = false := by
        rw [isNone_eq_false_of_isSome hst]
        simp
      rw [hcount, if_neg Bool.false_ne_true]
      rw [step_error_unchanged c st _ hst]
      simpa using ih st h
    | cancel =>
      have hcount : (isCommit Call.cancel
          && (step c st Call.cancel).2.isNone) = false := by
        simp [isCommit]
      rw [hcount, if_neg Bool.false_ne_true]
      have hflag : (step c st Call.cancel).1.1.cancelled = true := by
        by_cases h1 : st.1.closed
        · rw [step_error_unchanged c st _ (by rw [step_cancel_status]; simp [h1])]
          exact h
        · by_cases h2 : st.1.committed
          · rw [step_error_unchanged c st _
              (by rw [step_cancel_status]; simp [h1, h2])]
            exact h
          · simp only [step, cancel, if_neg (by simp [h1] :
              ¬ st.1.closed = true), if_neg (by simp [h2] :
              ¬ st.1.committed = true)]
      simpa using ih _ hflag

theorem run_commit_at_most_once_and_mutex (c : Nat) :
    ∀ (calls : List Call) (st : Writer × Store),
      callSuccessCount isCommit calls (run c st calls).2 ≤ 1 ∧
      ¬(0 < callSuccessCount isCommit calls (run c st calls).2 ∧
        0 < callSuccessCount isCancel calls (run c st calls).2) := by
  intro calls
  induction calls with
  | nil =>
    intro st
    constructor
    · rw [callSuccessCount_nil]
      omega
    · rw [callSuccessCount_nil, callSuccessCount_nil]
      omega
  | cons a t ih =>
    intro st
    simp only [run]
    rw [callSuccessCount_cons, callSuccessCount_cons]
    by_cases hsucc : (step c st a).2.isNone = true
    · cases a with
      | write p =>
        have h1 : (isCommit (Call.write p) && (step c st (Call.write p)).2.isNone)
            = false := by simp [isCommit]
        have h2 : (isCancel (Call.write p) && (step c st (Call.write p)).2.isNone)
            = false := by simp [isCancel]
        rw [h1, h2]
        simpa using ih (step c st (Call.write p)).1
      | close =>
        have h1 : (isCommit Call.close && (step c st Call.close).2.isNone)
            = false := by simp [isCommit]
        have h2 : (isCancel Call.close && (step c st Call.close).2.isNone)
            = false := by simp [isCancel]
        rw [h1, h2]
        simpa using ih (step c st Call.close).1
      | commit =>
        -- a successful Commit sets committed; afterwards no Commit or
        -- Cancel ever succeeds again
        have hcommitted : (step c st Call.commit).1.1.committed = true := by
          have hnc : ¬ st.1.closed = true := by
            intro hcl
            rw [step_commit_status] at hsucc
            simp [hcl] at hsucc
          have hnm : ¬ st.1.committed = true := by
            intro hcm
            rw [step_commit_status] at hsucc
            by_cases h1 : st.1.closed <;> simp [h1, hcm] at hsucc
          have hna : ¬ st.1.cancelled = true := by
            intro hca
            rw [step_commit_status] at hsucc
            by_cases h1 : st.1.closed
            · simp [h1] at hsucc
            · by_cases h2 : st.1.committed <;> simp [h1, h2, hca] at hsucc
          simp only [step, commit, if_neg hnc, if_neg hnm, if_neg hna]
        have hdead := run_dead c t (step c st Call.commit).1
          (Or.inr hcommitted)
        have hcommit0 : callSuccessCount isCommit t
            (run c (step c st Call.commit).1 t).2 = 0 := by
          have := callSuccessCount_mono isCommit isCommitOrCancel
            (by intro a ha; cases a <;> simp [isCommit, isCommitOrCancel] at ha ⊢)
            t (run c (step c st Call.commit).1 t).2
          omega
        have hcancel0 : callSuccessCount isCancel t
            (run c (step c st Call.commit).1 t).2 = 0 := by
          have := callSuccessCount_mono isCancel isCommitOrCancel
            (by intro a ha; cases a <;> simp [isCancel, isCommitOrCancel] at ha ⊢)
            t (run c (step c st Call.commit).1 t).2
          omega
        have hcc : (isCancel Call.commit && (step c st Call.commit).2.isNone)
            = false := by simp [isCancel]
        rw [hcc, if_neg Bool.false_ne_true]
        rw [hcommit0, hcancel0]
        constructor
        · split <;> omega
        · omega
      | cancel =>
        -- a successful Cancel sets cancelled; afterwards no Commit succeeds
        have hcancelled : (step c st Call.cancel).1.1.cancelled = true := by
          have hnc : ¬ st.1.closed = true := by
            intro hcl
            rw [step_cancel_status] at hsucc
            simp [hcl] at hsucc
          have hnm : ¬ st.1.committed = true := by
            intro hcm
            rw [step_cancel_status] at hsucc
            by_cases h1 : st.1.closed <;> simp [h1, hcm] at hsucc
          simp only [step, cancel, if_neg hnc, if_neg hnm]
        have hcommit0 := run_no_commit_after_cancelled c t
          (step c st Call.cancel).1 hcancelled
        have hcm : (isCommit Call.cancel && (step c st Call.cancel).2.isNone)
            = false := by simp [isCommit]
        rw [hcm, if_neg Bool.false_ne_true]
        rw [hcommit0]
        constructor
        · omega
        · omega
    · -- the call failed: nothing is counted and the state is unchanged
      have hfalse : (step c st a).2.isNone = false := by
        cases hx : (step c st a).2 with
        | none => rw [hx] at hsucc; simp at hsucc
        | some e => rfl
      have h1 : (isCommit a && (step c st a).2.isNone) = false := by
        rw [hfalse]; simp
      have h2 : (isCancel a && (step c st a).2.isNone) = false := by
        rw [hfalse]; simp
      rw [h1, h2]
      simpa using ih (step c st a).1

end Cos

/-! ## Claim theorems for the pure fragments -/

open Cos

/-- C9: cosPath is the pure function
trimLeadingSlashes(trimTrailingSlash(rootDirectory) + path), and for the
root directory every constructed driver actually carries (the empty
string hard-coded by New) it is idempotent: cosPath (cosPath p) = cosPath p. -/
theorem cosPath_pure_and_idempotent :
    (∀ root p, cosPath root p = toKey root p) ∧
    (∀ p, cosPath newRootDirectory (cosPath newRootDirectory p) =
        cosPath newRootDirectory p) := by
  constructor
  · intro root p; rfl
  · intro p
    show trimLeftSlashes ([] ++ trimLeftSlashes ([] ++ p)) = trimLeftSlashes ([] ++ p)
    simp only [List.nil_append]
    exact dropWhile_idem _ p

/-- C5: driver.copy issues a single-shot server-side copy exactly when the
source size is at most the multipart-copy threshold; above it, a multipart
copy of ceil(size / copyChunkSize) parts is used, part i copying bytes
[i*chunkSize, min((i+1)*chunkSize, size) - 1]. -/
theorem copyPlan_threshold_and_ranges (size : Nat) :
    copyPlan size =
      if size ≤ multipartCopyThresholdSize then CopyPlan.singleShot
      else CopyPlan.multipart ((List.range (size ⌈/⌉ multipartCopyChunkSize)).map
        (fun i => (i * multipartCopyChunkSize,
                   min ((i + 1) * multipartCopyChunkSize) size - 1))) := by
  rw [copyPlan]
  by_cases h : size ≤ multipartCopyThresholdSize
  · simp [h]
  · simp only [h, if_false]
    congr 1
    have hnum : copyNumParts size = size ⌈/⌉ multipartCopyChunkSize := by
      rw [Nat.ceilDiv_eq_add_pred_div]; rfl
    rw [hnum]
    apply List.map_congr_left
    intro i _
    simp only [copyPartRange]
    congr 1
    have hchunk : 0 < multipartCopyChunkSize := by decide
    have hsucc : (i + 1) * multipartCopyChunkSize
        = i * multipartCopyChunkSize + multipartCopyChunkSize := Nat.succ_mul i _
    rw [hsucc, Nat.min_def]
    split <;> split <;> omega

/-- C3 evaluation: when the internal copy fails, driver.Move returns nil
(success) to the caller instead of a failure, and does not delete the
source.  The claim's error-propagation half is contradicted by the code;
the delete-only-after-successful-copy half holds. -/
theorem move_swallows_copy_error :
    move (some "copy failed") none =
      { returnedError := none, deleteAttempted := false } ∧
    ∀ deleteResult, (move none deleteResult).deleteAttempted = true := by
  exact ⟨rfl, fun _ => rfl⟩

/-- C7 evaluation: transport errors ARE silently downgraded to success.
Delete, run over a bucket holding the single key "a" with its DeleteMulti
call failing, returns nil (success) while nothing was removed; and
GetContent discards a response-body read error and returns the partial
bytes with a nil error. -/
theorem transport_errors_downgraded_to_success :
    (cosDelete ['a'] [['a']] [some "service unavailable"]).returned =
      Except.ok () ∧
    (cosDelete ['a'] [['a']] [some "service unavailable"]).remaining = [['a']] ∧
    getContent none [1, 2] (some "unexpected EOF") = Except.ok [1, 2] :=
  ⟨rfl, rfl, rfl⟩

/-- C6: in every run of Delete, each page's key accumulation stops at the
first key strictly longer than the mapped prefix whose character at the
prefix-length position is not a slash; every key the run deletes passes
the boundary test (so deleting "a" never deletes "ab"); every key of the
bucket that fails the subpath test survives the run; only the last page
processed may be partially consumed (no page is fetched after a partial
one); and an initial listing with zero keys makes Delete report
PathNotFoundError. -/
theorem delete_boundary_paging_notfound (cp : Key) (keys : List Key) :
    (∀ page, accumulatePage cp page
        = page.takeWhile (fun k => !(notSubpath cp k))) ∧
    (∀ k ∈ (cosDelete cp keys []).deleted, notSubpath cp k = false) ∧
    (∀ k ∈ keys, notSubpath cp k = true → k ∈ (cosDelete cp keys []).remaining) ∧
    (∀ e ∈ (cosDelete cp keys []).pages.dropLast, e.2 = e.1) ∧
    ((pageListing keys cp).length = 0 →
        (cosDelete cp keys []).returned = Except.error ()) := by
  refine ⟨accumulatePage_eq_takeWhile cp, ?_, ?_, ?_, ?_⟩
  · intro k hk
    rw [cosDelete] at hk
    by_cases h0 : (pageListing keys cp).length = 0
    · simp [h0] at hk
    · rw [if_neg h0] at hk
      exact deleteLoop_deleted_boundary cp _ keys [] k hk
  · intro k hk hb
    rw [cosDelete]
    by_cases h0 : (pageListing keys cp).length = 0
    · simpa [h0] using hk
    · rw [if_neg h0]
      exact deleteLoop_keeps_boundary_keys cp _ keys [] k hk hb
  · intro e he
    rw [cosDelete] at he
    by_cases h0 : (pageListing keys cp).length = 0
    · simp [h0] at he
    · rw [if_neg h0] at he
      exact deleteLoop_pages_full cp _ keys [] e he
  · intro h0
    rw [cosDelete, if_pos h0]

/-- Witness for C6 at a concrete bucket: deleting under prefix "a" over
keys {"a", "a/b", "ab"} leaves the sibling key "ab" in the bucket. -/
theorem delete_boundary_paging_notfound_witness :
    (['a', 'b'] ∈ ([['a'], ['a', '/', 'b'], ['a', 'b']] : List Key)) ∧
    notSubpath ['a'] ['a', 'b'] = true ∧
    ['a', 'b'] ∈ (cosDelete ['a'] [['a'], ['a', '/', 'b'], ['a', 'b']] []).remaining :=
  ⟨by decide, by decide,
    (delete_boundary_paging_notfound ['a']
        [['a'], ['a', '/', 'b'], ['a', 'b']]).2.2.1 ['a', 'b']
      (by decide) (by decide)⟩

/-- C8: Stat over the MaxKeys = 1 prefix listing classifies as the source
does: one key equal to the mapped path is a file carrying the entry's
size and parsed timestamp (a parse failure is returned as an error for
the call); one differing key is a directory; otherwise one common prefix
is a directory; otherwise not-found. -/
theorem stat_classification (pt : String → Option Nat) (cp : Key)
    (resp : ListResponse) :
    (∀ e, resp.contents = [e] →
      (e.key = cp →
        (∀ t, pt e.lastModified = some t → stat pt cp resp = .file e.size t) ∧
        (pt e.lastModified = none → stat pt cp resp = .parseError)) ∧
      (e.key ≠ cp → stat pt cp resp = .dir)) ∧
    (resp.contents.length ≠ 1 → resp.commonPrefixes.length = 1 →
        stat pt cp resp = .dir) ∧
    (resp.contents.length ≠ 1 → resp.commonPrefixes.length ≠ 1 →
        stat pt cp resp = .notFound) := by
  refine ⟨?_, ?_, ?_⟩
  · intro e he
    have hlen : resp.contents.length = 1 := by rw [he]; rfl
    have hhead : resp.contents.headD { key := [], size := 0, lastModified := "" }
        = e := by rw [he]; rfl
    constructor
    · intro hkey
      constructor
      · intro t ht
        rw [stat, if_pos hlen, hhead]
        rw [if_neg (by simp [hkey]), ht]
      · intro ht
        rw [stat, if_pos hlen, hhead]
        rw [if_neg (by simp [hkey]), ht]
    · intro hkey
      rw [stat, if_pos hlen, hhead, if_pos hkey]
  · intro h1 hcp
    rw [stat, if_neg h1, if_pos hcp]
  · intro h1 hcp
    rw [stat, if_neg h1, if_neg hcp]

/-- Witness for C8 at a concrete response: a single listing entry whose
key equals the mapped path produces a file with the entry's size and the
parsed timestamp. -/
theorem stat_classification_witness :
    stat (fun s => if s = "ts" then some 7 else none) ['a']
      { contents := [{ key := ['a'], size := 8, lastModified := "ts" }],
        commonPrefixes := [] } = .file 8 7 :=
  (((stat_classification (fun s => if s = "ts" then some 7 else none) ['a']
      { contents := [{ key := ['a'], size := 8, lastModified := "ts" }],
        commonPrefixes := [] }).1
      { key := ['a'], size := 8, lastModified := "ts" } rfl).1 rfl).1 7 (by decide)

/-- C1: writing any sequence of chunks each smaller than the minimum part
size (1 MiB) through a fresh writer and then committing never produces a
completed multipart upload with a non-final part below the minimum part
size; the small-last-part repair at the top of Write (complete, re-initiate,
re-seed by whole-object download or part-copy as part number 1, at most
once per call and before new bytes are buffered) preserves this for every
intermediate completion as well: the guarantee below covers every entry of
the store's completion log. -/
theorem small_writes_then_commit_min_parts (c : Nat) (ws : List Bytes)
    (hc : minChunkSize ≤ c)
    (hsmall : ∀ p ∈ ws, p.length < minChunkSize) :
    ∀ entry ∈ ((run c freshWriterStore
        (ws.map Call.write ++ [Call.commit])).1.2).completedLog,
      ∀ x ∈ entry.dropLast, minChunkSize ≤ x := by
  have hW := run_writes_preserve c hc ws freshWriterStore
    (freshWriterStore_inv c hc)
  rw [run_fst_append]
  obtain ⟨w2, s2, heq, hlog⟩ := commit_preserves_log c
    (run c freshWriterStore (ws.map Call.write)).1.1
    (run c freshWriterStore (ws.map Call.write)).1.2 hc hW
  simp only [run, step, heq]
  exact hlog

/-- Witness for C1 at a concrete run: one 3-byte write with chunk size
minChunkSize, then Commit. -/
theorem small_writes_then_commit_min_parts_witness :
    (minChunkSize ≤ minChunkSize) ∧
    (∀ p ∈ ([[7, 8, 9]] : List Bytes), p.length < minChunkSize) ∧
    ∀ entry ∈ ((run minChunkSize freshWriterStore
        (([[7, 8, 9]] : List Bytes).map Call.write
          ++ [Call.commit])).1.2).completedLog,
      ∀ x ∈ entry.dropLast, minChunkSize ≤ x :=
  ⟨le_refl _, by decide,
   small_writes_then_commit_min_parts minChunkSize [[7, 8, 9]]
     (le_refl _) (by decide)⟩

/-- C2 counterexample: from a fresh writer, Cancel succeeds twice (the
claim says at most one of Commit and Cancel ever succeeds), and after a
successful Cancel a subsequent Close also succeeds (the claim says every
call after a terminal flag fails). -/
theorem cancel_twice_and_close_after_cancel :
    ¬ (callSuccessCount isCommitOrCancel [Call.cancel, Call.cancel]
        (run defaultChunkSize freshWriterStore
          [Call.cancel, Call.cancel]).2 ≤ 1) ∧
    (run defaultChunkSize freshWriterStore [Call.cancel, Call.close]).2
      = [none, none] := by
  constructor
  · decide
  · rfl

/-- C2 amended: the writer's guards are exactly those of the source —
Write and Commit fail (with an already-closed, already-committed or
already-cancelled error) whenever any terminal flag is set, Close fails
only when already
closed, Cancel fails only when closed or committed; a failed call leaves
writer and store unchanged (no store I/O); consequently, in every run
from a fresh writer at most one Commit ever succeeds and Commit and
Cancel never both succeed — but repeated Cancel, and Close after Commit
or Cancel, do succeed. -/
theorem writer_terminal_guards (c : Nat) (st : Writer × Store) :
    (∀ p, (step c st (Call.write p)).2 =
      (if st.1.closed then some "already closed"
       else if st.1.committed then some "already committed"
       else if st.1.cancelled then some "already cancelled" else none)) ∧
    ((step c st Call.close).2 =
      (if st.1.closed then some "already closed" else none)) ∧
    ((step c st Call.cancel).2 =
      (if st.1.closed then some "already closed"
       else if st.1.committed then some "already committed" else none)) ∧
    ((step c st Call.commit).2 =
      (if st.1.closed then some "already closed"
       else if st.1.committed then some "already committed"
       else if st.1.cancelled then some "already cancelled" else none)) ∧
    (∀ call, (step c st call).2.isSome = true → (step c st call).1 = st) ∧
    (∀ calls,
      callSuccessCount isCommit calls (run c freshWriterStore calls).2 ≤ 1 ∧
      ¬(0 < callSuccessCount isCommit calls (run c freshWriterStore calls).2 ∧
        0 < callSuccessCount isCancel calls
          (run c freshWriterStore calls).2)) := by
  refine ⟨step_write_status c st, step_close_status c st,
    step_cancel_status c st, step_commit_status c st,
    step_error_unchanged c st, ?_⟩
  intro calls
  exact run_commit_at_most_once_and_mutex c calls freshWriterStore

/-- Witness for C2 (amended) at a concrete state: Commit against an
already-closed writer fails and leaves the state untouched. -/
theorem writer_terminal_guards_witness :
    ((step defaultChunkSize (closedWriter, initialStore) Call.commit).2.isSome
      = true) ∧
    (step defaultChunkSize (closedWriter, initialStore) Call.commit).1
      = (closedWriter, initialStore) :=
  ⟨by decide,
   (writer_terminal_guards defaultChunkSize
      (closedWriter, initialStore)).2.2.2.2.1 Call.commit (by decide)⟩

/-- C4 evaluation: flushPart uploads the 3-byte ready buffer as part
number 1 but the record appended to the writer's parts list carries Size
0, not 3 — only the entity tag and part number are recorded, so the
uploaded size is not recorded in the parts list. -/
theorem flushPart_size_not_recorded :
    ((flushPart defaultChunkSize
        { uploadID := 0, parts := [], size := 0, readyPart := [7, 8, 9],
          pendingPart := [], closed := false, committed := false,
          cancelled := false } initialStore).1.parts.map (fun q => q.size))
      = [0] ∧
    (((flushPart defaultChunkSize
        { uploadID := 0, parts := [], size := 0, readyPart := [7, 8, 9],
          pendingPart := [], closed := false, committed := false,
          cancelled := false } initialStore).2.parts 0).map
        (fun q => q.data.length)) = [3] :=
  ⟨rfl, rfl⟩

/-- C10 counterexample: the claim asserts that when InitiateMultipartUpload
returns an error, Writer returns that error without first reading the
UploadID field of the response.  The source reads multi.UploadID before
the error check, so with a nil response value and an error the call
crashes (modelled as none) instead of returning the error. -/
theorem writerNoAppend_crashes_on_nil_response :
    ¬ (writerNoAppend none (some "transport error") =
        some (Except.error "transport error")) := by
  simp [writerNoAppend]

/-- C10 amended: driver.Writer (append = false) reads the UploadID field of
the response value before checking the error, so the error branch requires
a valid non-nil response: given a non-nil response together with an error,
that error is returned unchanged, while a nil response makes the call
crash before the error branch regardless of the error value. -/
theorem writerNoAppend_error_after_field_read :
    (∀ (m : InitiateResult) (e : String),
        writerNoAppend (some m) (some e) = some (.error e)) ∧
    (∀ err, writerNoAppend none err = none) := by
  exact ⟨fun _ _ => rfl, fun _ => rfl⟩

